import Mathlib

/-!
Verification of the PorkChop legislative-bill text pipeline.

The repository snapshot contains the web/MCP TypeScript readers
(`web/src/lib/api.ts`, `web/src/lib/db.ts`, `web/mcp/src/db.ts`,
`web/src/lib/pork-colors.ts`) but not the Python pipeline modules
(`cleaner.py`, `chunker.py`, `extractor.py`, `scorer.py`).  The pipeline
components are therefore modelled from the specification; the web reader
functions are translated directly from the TypeScript/SQL source.

Text is embedded as `List Char`; a document is a `List (List Char)` of
its lines (newline separators are implicit between consecutive lines).
-/

/-- Characters treated as intra-line whitespace by the cleaner. -/
def isWSCh (c : Char) : Bool := c = ' ' || c = '\t'

/-- ASCII decimal digit test. -/
def isDigitCh (c : Char) : Bool := '0' ≤ c && c ≤ '9'

/-- ASCII lowercase letter test. -/
def isLowerCh (c : Char) : Bool := 'a' ≤ c && c ≤ 'z'

/-- ASCII letter test. -/
def isAlphaCh (c : Char) : Bool := ('a' ≤ c && c ≤ 'z') || ('A' ≤ c && c ≤ 'Z')

/-- ASCII case folding of one character. -/
def toLowerCh (c : Char) : Char :=
  if 'A' ≤ c && c ≤ 'Z' then Char.ofNat (c.toNat + 32) else c

/-- ASCII case folding of a character list. -/
def lowerCase (l : List Char) : List Char := l.map toLowerCh

/-- Collapse every run of whitespace inside a line to a single space. -/
def collapseWS : List Char → List Char
  | [] => []
  | [c] => [if isWSCh c then ' ' else c]
  | c1 :: c2 :: rest =>
    if isWSCh c1 && isWSCh c2 then collapseWS (c2 :: rest)
    else (if isWSCh c1 then ' ' else c1) :: collapseWS (c2 :: rest)

/-- Remove trailing whitespace of a line. -/
def rtrim (l : List Char) : List Char := (l.reverse.dropWhile isWSCh).reverse

/-- Remove leading whitespace of a line. -/
def ltrim (l : List Char) : List Char := l.dropWhile isWSCh

/-- Remove whitespace from both ends of a line. -/
def trimEnds (l : List Char) : List Char := ltrim (rtrim l)

/-- Does `pat` occur contiguously anywhere in the list? -/
def containsSeq (pat : List Char) : List Char → Bool
  | [] => pat.isPrefixOf ([] : List Char)
  | c :: rest => pat.isPrefixOf (c :: rest) || containsSeq pat rest

/-- A line in canonical form for pattern tests: whitespace collapsed and
both ends trimmed, so patterns tolerate indentation variance. -/
def canonLine (l : List Char) : List Char := trimEnds (collapseWS l)

/-- Modelled from the spec: publisher revision-date header lines
(`VerDate Nov 24 2008 ...`), detected anywhere on the line. -/
def isRevDateLine (l : List Char) : Bool :=
  containsSeq "VerDate".data (canonLine l)

/-- Modelled from the spec: job-ticket lines (`Jkt 000000 ...`). -/
def isJobTicketLine (l : List Char) : Bool :=
  containsSeq "Jkt ".data (canonLine l)

/-- Modelled from the spec: embedded XML file references. -/
def isXmlRefLine (l : List Char) : Bool :=
  containsSeq ".xml".data (canonLine l) || containsSeq ".XML".data (canonLine l)

/-- Modelled from the spec: Windows-style file-path references
(a drive or path separator `:\`). -/
def isWinPathLine (l : List Char) : Bool :=
  containsSeq ":\\".data (canonLine l)

/-- Modelled from the spec: standalone page numbers (the line is nothing
but digits once trimmed). -/
def isPageNumLine (l : List Char) : Bool :=
  let t := canonLine l
  !t.isEmpty && t.all isDigitCh

/-- A clock token `<digit>:<digit>` somewhere in the list. -/
def hasClockToken : List Char → Bool
  | a :: b :: c :: rest =>
    (isDigitCh a && b = ':' && isDigitCh c) || hasClockToken (b :: c :: rest)
  | _ => false

/-- Modelled from the spec: bare timestamp lines such as
`December 17, 2024 (5:46 p.m.)`. -/
def isTimestampLine (l : List Char) : Bool :=
  hasClockToken (canonLine l) &&
    (containsSeq "a.m.".data (canonLine l) || containsSeq "p.m.".data (canonLine l))

/-- Modelled from the spec: a line is removed when any artifact pattern
matches anywhere on it. -/
def removeLine (l : List Char) : Bool :=
  isRevDateLine l || isJobTicketLine l || isXmlRefLine l || isWinPathLine l ||
    isPageNumLine l || isTimestampLine l

/-- A line survives phase 1 of the cleaner iff no removal pattern matches. -/
def keepLine (l : List Char) : Bool := !removeLine l

/-- Numeric value of a digit list. -/
def digitsVal (ds : List Char) : Nat :=
  ds.foldl (fun n c => 10 * n + (c.toNat - 48)) 0

/-- Modelled from the spec: strip a leading numeric line-number prefix
(GPO pages number their lines 1–25, so a one- or two-digit number up to 25
followed by a space). -/
def stripLineNum (l : List Char) : List Char :=
  let ds := l.takeWhile isDigitCh
  match l.dropWhile isDigitCh with
  | ' ' :: r => if !ds.isEmpty && ds.length ≤ 2 && digitsVal ds ≤ 25 then r else l
  | _ => l

/-- Scanner state for the OCR repair: either between words, or holding a
pending lowercase letter, or holding a pending lowercase letter plus a
digit run followed by one space. -/
inductive OcrSt
  | idle : OcrSt
  | low : Char → List Char → OcrSt
  | sp : Char → List Char → OcrSt

/-- Modelled from the spec: repair OCR artifacts
`<lowercase><digit(s)><space><lowercase>` by deleting the digit run and the
space, and ONLY in that lowercase-to-lowercase configuration.  The digit
run is buffered (reversed) in the state and is flushed verbatim whenever
the pattern fails to complete. -/
def ocrScan : OcrSt → List Char → List Char
  | .idle, [] => []
  | .idle, x :: rest =>
    if isLowerCh x then ocrScan (.low x []) rest else x :: ocrScan .idle rest
  | .low c ds, [] => c :: ds.reverse
  | .low c ds, x :: rest =>
    if isDigitCh x then ocrScan (.low c (x :: ds)) rest
    else if !ds.isEmpty && x = ' ' then ocrScan (.sp c ds) rest
    else
      c :: ds.reverse ++
        (if isLowerCh x then ocrScan (.low x []) rest else x :: ocrScan .idle rest)
  | .sp c ds, [] => c :: ds.reverse ++ [' ']
  | .sp c ds, x :: rest =>
    if isLowerCh x then c :: ocrScan (.low x []) rest
    else c :: ds.reverse ++ ' ' :: x :: ocrScan .idle rest

/-- OCR artifact repair over one line. -/
def ocrFix (l : List Char) : List Char := ocrScan .idle l

/-- Phase 2 of the cleaner: line-number strip, then OCR repair. -/
def repairLine (l : List Char) : List Char := ocrFix (stripLineNum l)

/-- Phase 3a of the cleaner: collapse whitespace runs and trim the tail. -/
def normalizeLine (l : List Char) : List Char := rtrim (collapseWS l)

/-- Phase 3b of the cleaner: collapse every run of 3 or more blank lines
to a single blank line (runs of 1–2 blanks are kept as they are).  The
counter `n` holds the number of pending blank lines. -/
def cbAux : Nat → List (List Char) → List (List Char)
  | n, [] => if 3 ≤ n then [[]] else List.replicate n []
  | n, l :: rest =>
    if l.isEmpty then cbAux (n + 1) rest
    else (if 3 ≤ n then [[]] else List.replicate n []) ++ l :: cbAux 0 rest

/-- Collapse runs of 3+ blank lines to one blank line. -/
def collapseBlanks (ls : List (List Char)) : List (List Char) := cbAux 0 ls

/-- Modelled from the spec (`cleaner.py` is not in the snapshot):
`clean` = line removal, then inline repair, then normalization. -/
def clean (ls : List (List Char)) : List (List Char) :=
  collapseBlanks (((ls.filter keepLine).map repairLine).map normalizeLine)

/-! ## Chunker (modelled from the spec; `chunker.py` is not in the snapshot) -/

/-- A document line. -/
abbrev Line := List Char

/-- Modelled from the spec: a structural marker is a DIVISION or TITLE
heading line. -/
def isMarker (l : Line) : Bool :=
  ("DIVISION".data.isPrefixOf (ltrim l)) || ("TITLE".data.isPrefixOf (ltrim l))

/-- Group lines so that every structural marker opens a new group; `cur`
holds the current group reversed. -/
def sgAux : List Line → List Line → List (List Line)
  | cur, [] => [cur.reverse]
  | cur, l :: rest =>
    if isMarker l then cur.reverse :: sgAux [l] rest else sgAux (l :: cur) rest

/-- Modelled from the spec: structural grouping; the text before the first
marker forms an implicit preamble group, dropped when empty. -/
def structuralGroups (lines : List Line) : List (List Line) :=
  match sgAux [] lines with
  | [] => []
  | g :: gs => if g.isEmpty then gs else g :: gs

/-- A labeled group of lines, before positions are assigned. -/
structure LChunk where
  glines : List Line
  division : Option Line
  title : Option Line
deriving DecidableEq

/-- Is the line a DIVISION heading?  -/
def isDivisionLine (l : Line) : Bool := "DIVISION".data.isPrefixOf (ltrim l)

/-- Is the line a TITLE heading?  -/
def isTitleLine (l : Line) : Bool := "TITLE".data.isPrefixOf (ltrim l)

/-- Modelled from the spec: carry the current division/title labels across
the groups; a DIVISION marker resets the title. -/
def labelGroups : Option Line → Option Line → List (List Line) → List LChunk
  | _, _, [] => []
  | d, t, g :: gs =>
    match g.head? with
    | none => ⟨g, d, t⟩ :: labelGroups d t gs
    | some h =>
      if isDivisionLine h then ⟨g, some h, none⟩ :: labelGroups (some h) none gs
      else if isTitleLine h then ⟨g, d, some h⟩ :: labelGroups d (some h) gs
      else ⟨g, d, t⟩ :: labelGroups d t gs

/-- Character count of a group of lines, counting one separator between
consecutive lines. -/
def groupChars (g : List Line) : Nat := (g.map List.length).sum + (g.length - 1)

/-- Is `i` a legal oversize-split index for group `g` under limit `m`?
The split must be proper and fall right after a blank line (a paragraph
boundary), with the prefix within the limit. -/
def splitOk (m : Nat) (g : List Line) (i : Nat) : Bool :=
  1 ≤ i && i < g.length && (g.getD (i - 1) []).isEmpty && groupChars (g.take i) ≤ m

/-- The largest legal split index below the limit, when one exists. -/
def splitPoint (m : Nat) (g : List Line) : Option Nat :=
  ((List.range g.length).filter (splitOk m g)).getLast?

/-- Modelled from the spec: recursively split an oversized group at the
nearest paragraph boundary below the limit; a group that fits, or that has
no legal split point, is kept whole. -/
def splitGroup (m : Nat) (g : List Line) : List (List Line) :=
  if groupChars g ≤ m then [g]
  else
    match splitPoint m g with
    | none => [g]
    | some i =>
      if h2 : 1 ≤ i ∧ i < g.length then g.take i :: splitGroup m (g.drop i)
      else [g]
termination_by g.length
decreasing_by
  simp only [List.length_drop]
  omega

/-- Oversize-split one labeled group; sub-chunks keep the parent labels. -/
def expandGroup (m : Nat) (c : LChunk) : List LChunk :=
  (splitGroup m c.glines).map (fun g => ⟨g, c.division, c.title⟩)

/-- A chunk: ordered, labeled slice of the cleaned document.  `text` is
represented as the list of the chunk's lines. -/
structure Chunk where
  text : List Line
  division : Option Line
  title : Option Line
  position : Nat
  char_count : Nat
deriving DecidableEq

/-- Assign sequential `position` values (and `char_count`) to the groups. -/
def withPos : Nat → List LChunk → List Chunk
  | _, [] => []
  | n, c :: cs => ⟨c.glines, c.division, c.title, n, groupChars c.glines⟩ :: withPos (n + 1) cs

/-- The two chunking strategies of the spec. -/
inductive ChunkStrategy
  | structural
  | fixedSize
deriving DecidableEq

/-- Modelled from the spec: fixed-size grouping, breaking only at line
boundaries; `cur` is the current group reversed and `size` its char count. -/
def fsAux (m : Nat) : List Line → Nat → List Line → List (List Line)
  | cur, _, [] => if cur.isEmpty then [] else [cur.reverse]
  | cur, size, l :: rest =>
    if cur.isEmpty then fsAux m [l] l.length rest
    else if size + 1 + l.length ≤ m then fsAux m (l :: cur) (size + 1 + l.length) rest
    else cur.reverse :: fsAux m [l] l.length rest

/-- Modelled from the spec: `chunk(clean_text, strategy, max_chunk_chars)`.
Under the structural strategy, a document with no structural markers falls
back to a single chunk covering the whole document with no labels. -/
def chunkDoc (lines : List Line) (strat : ChunkStrategy) (maxc : Nat) : List Chunk :=
  match strat with
  | .fixedSize => withPos 0 ((fsAux maxc [] 0 lines).map (fun g => ⟨g, none, none⟩))
  | .structural =>
    if lines.all (fun l => !isMarker l) then withPos 0 [⟨lines, none, none⟩]
    else withPos 0 ((labelGroups none none (structuralGroups lines)).map (expandGroup maxc)).flatten

/-! ## Extractor, deadline stage (modelled from the spec; `extractor.py` is
not in the snapshot) -/

/-- The deadline trigger phrase. -/
def nltPat : List Char := "not later than ".data

/-- First occurrence of `pat`: returns the text before it and after it. -/
def findPat (pat : List Char) : List Char → Option (List Char × List Char)
  | [] => if pat.isEmpty then some ([], []) else none
  | c :: rest =>
    if pat.isPrefixOf (c :: rest) then some ([], (c :: rest).drop pat.length)
    else (findPat pat rest).map (fun pr => (c :: pr.1, pr.2))

/-- English month names. -/
def monthNames : List (List Char) :=
  ["January".data, "February".data, "March".data, "April".data, "May".data,
   "June".data, "July".data, "August".data, "September".data, "October".data,
   "November".data, "December".data]

/-- Parse a full date `<Month> <d(d)>, <yyyy>` at the head of the list;
returns the date text and the remainder. -/
def parseDate (l : List Char) : Option (List Char × List Char) :=
  match monthNames.find? (fun m => m.isPrefixOf l) with
  | none => none
  | some m =>
    match l.drop m.length with
    | ' ' :: r2 =>
      if (r2.takeWhile isDigitCh).isEmpty || 2 < (r2.takeWhile isDigitCh).length then none
      else
        match r2.dropWhile isDigitCh with
        | ',' :: ' ' :: r4 =>
          if (r4.takeWhile isDigitCh).length = 4 then
            some (m ++ ' ' :: r2.takeWhile isDigitCh ++ ',' :: ' ' :: r4.takeWhile isDigitCh,
              r4.dropWhile isDigitCh)
          else none
        | _ => none
    | _ => none

/-- Characters skipped between the date and the start of the action. -/
def actionTrimCh (c : Char) : Bool := c = ' ' || c = ','

/-- Leading punctuation that disqualifies a captured action. -/
def punctCh (c : Char) : Bool :=
  c = ';' || c = ':' || c = '(' || c = ')' || c = '-' || c = '.' || c = ',' ||
    c = '"' || c = '\''

/-- Modelled from the spec: the action is the forward text following the
date up to the sentence boundary; the garbage filter rejects captures that
start with punctuation, `Provided, That` provisos, or section-heading
fragments, leaving the deadline with a null action. -/
def mkAction (rest : List Char) : Option (List Char) :=
  let t := rest.dropWhile actionTrimCh
  let a := t.takeWhile (fun c => c ≠ '.')
  if a.isEmpty then none
  else if punctCh (a.headD ' ') then none
  else if "Provided, That".data.isPrefixOf a then none
  else if "SEC".data.isPrefixOf a then none
  else some a

/-- A deadline record. -/
structure Deadline where
  date_text : List Char
  action : Option (List Char)
  source_text : List Char
deriving DecidableEq

/-- Modelled from the spec: locate a `not later than <date>` construction
and capture the forward text following the date as the required action. -/
def extractDeadline (l : List Char) : Option Deadline :=
  match findPat nltPat l with
  | none => none
  | some (_, suf) =>
    match parseDate suf with
    | none => none
    | some (dt, rest) => some ⟨dt, mkAction rest, l⟩

/-! ## Scorer (modelled from the spec; `scorer.py` is not in the snapshot) -/

/-- A funding item as consumed by the scorer. -/
structure FundingItem where
  amount_text : List Char
  amount_numeric : Option ℚ
  purpose : Option (List Char)
  recipient : Option (List Char)
  availability : Option (List Char)
  fiscal_years : List Int
  source_text : List Char
deriving DecidableEq

/-- Bill-level context for scoring: the bill title and the amounts of all
funding items of the bill (for relative-amount comparison). -/
structure BillContext where
  bill_title : List Char
  all_amounts : List ℚ
deriving DecidableEq

/-- Any of the patterns occurs in the list? -/
def containsAnySeq (pats : List (List Char)) (l : List Char) : Bool :=
  pats.any (fun p => containsSeq p l)

/-- Modelled from the spec: earmark phrasings. -/
def earmarkPhrases : List (List Char) :=
  ["located in".data, "county of".data, "university of".data,
   "memorial".data, "bridge".data]

/-- Modelled from the spec: geographic specificity markers. -/
def geoPhrases : List (List Char) :=
  ["county".data, "district".data, "parish".data]

/-- Modelled from the spec: named-entity specificity markers. -/
def namedEntityPhrases : List (List Char) :=
  ["university".data, "hospital".data, "museum".data, "foundation".data]

/-- Case-folded pattern search inside an optional text field. -/
def optContains (o : Option (List Char)) (pats : List (List Char)) : Bool :=
  match o with
  | none => false
  | some s => containsAnySeq pats (lowerCase s)

/-- Earmark-phrasing signal over the item's source text. -/
def earmarkSignal (it : FundingItem) : Bool :=
  containsAnySeq earmarkPhrases (lowerCase it.source_text)

/-- Geographic-specificity signal. -/
def geoSignal (it : FundingItem) : Bool :=
  containsAnySeq geoPhrases (lowerCase it.source_text)

/-- Named-entity-specificity signal on recipient or purpose. -/
def entitySignal (it : FundingItem) : Bool :=
  optContains it.recipient namedEntityPhrases || optContains it.purpose namedEntityPhrases

/-- Relative-smallness signal: the amount is under 1% of the bill total. -/
def smallAmountSignal (it : FundingItem) (ctx : BillContext) : Bool :=
  match it.amount_numeric with
  | none => false
  | some a => decide (a * 100 < ctx.all_amounts.sum)

/-- Split a text into case-folded alphabetic tokens; `acc` is the current
token reversed. -/
def tokensAux : List Char → List Char → List (List Char)
  | acc, [] => if acc.isEmpty then [] else [acc.reverse]
  | acc, c :: rest =>
    if isAlphaCh c then tokensAux (toLowerCh c :: acc) rest
    else if acc.isEmpty then tokensAux [] rest
    else acc.reverse :: tokensAux [] rest

/-- The significant (5+ letter) tokens of a text. -/
def sigTokens (l : List Char) : List (List Char) :=
  (tokensAux [] l).filter (fun w => 5 ≤ w.length)

/-- Topical-unrelatedness signal: the purpose has significant tokens and
shares none with the bill title. -/
def unrelatedSignal (it : FundingItem) (ctx : BillContext) : Bool :=
  match it.purpose with
  | none => false
  | some p =>
    !(sigTokens p).isEmpty &&
      (sigTokens p).all (fun w => !(sigTokens ctx.bill_title).contains w)

/-- Open-ended-availability signal: `until expended` with no fiscal year. -/
def openEndedSignal (it : FundingItem) : Bool :=
  optContains it.availability ["until expended".data] && it.fiscal_years.isEmpty

/-- Modelled from the spec: the triggered signals with their fixed point
weights (the spec fixes the signal list but not the individual weights;
representative constants are used, summing to 100). -/
def signalFlags (it : FundingItem) (ctx : BillContext) : List (String × ℚ) :=
  (if earmarkSignal it then [("earmark_phrase", (25 : ℚ))] else []) ++
  (if geoSignal it then [("geographic", (15 : ℚ))] else []) ++
  (if entitySignal it then [("named_entity", (20 : ℚ))] else []) ++
  (if smallAmountSignal it ctx then [("small_amount", (10 : ℚ))] else []) ++
  (if unrelatedSignal it ctx then [("unrelated_purpose", (20 : ℚ))] else []) ++
  (if openEndedSignal it then [("open_ended", (10 : ℚ))] else [])

/-- Clamp the summed score to `[0, 100]`. -/
def clampScore (q : ℚ) : ℚ := if q < 0 then 0 else if 100 < q then 100 else q

/-- The heuristic pork score: summed signal weights, clamped. -/
def heuristicScore (it : FundingItem) (ctx : BillContext) : ℚ :=
  clampScore ((signalFlags it ctx).map (fun f => f.2)).sum

/-- A pork score record. -/
structure PorkScore where
  heuristic_score : ℚ
  ai_score : Option ℚ
  blended_score : ℚ
  flags : List String
deriving DecidableEq

/-- Modelled from the spec: `score(funding_item, bill_context)` with an
optional external semantic judgment; when an `ai_score` is supplied the
blend is `0.3 * heuristic + 0.7 * ai_score`, otherwise the heuristic
stands alone. -/
def scoreItem (it : FundingItem) (ctx : BillContext) (ai : Option ℚ) : PorkScore :=
  let h := heuristicScore it ctx
  { heuristic_score := h
    ai_score := ai
    blended_score := match ai with
      | some a => 3 / 10 * h + 7 / 10 * a
      | none => h
    flags := (signalFlags it ctx).map (fun f => f.1) }

/-! ## Web reader layer (translated from `web/src/lib/db.ts`,
`web/mcp/src/db.ts` and `web/src/lib/pork-colors.ts`) -/

/-- A row of the `entities` table (the selected columns). -/
structure EntityRow where
  bill_id : Nat
  name : List Char
  entity_type : Option (List Char)
  role : Option (List Char)
deriving DecidableEq

/-- The record shape returned by `getEntities`. -/
structure EntityRec where
  name : List Char
  entity_type : Option (List Char)
  role : Option (List Char)
deriving DecidableEq

/-- Column projection of `SELECT name, entity_type, role`. -/
def toEntityRec (r : EntityRow) : EntityRec := ⟨r.name, r.entity_type, r.role⟩

/-- `getEntities`: `SELECT DISTINCT name, entity_type, role FROM entities
WHERE bill_id = ?`.  `DISTINCT` removes rows equal on all selected columns. -/
def getEntities (db : List EntityRow) (billId : Nat) : List EntityRec :=
  ((db.filter (fun r => r.bill_id == billId)).map toEntityRec).dedup

/-- Name normalization of the spec's entity model: case folding plus
whitespace collapsing and trimming. -/
def normName (l : List Char) : List Char := trimEnds (collapseWS (lowerCase l))

/-- A row of the `pork_scores` table. -/
structure PorkScoreRow where
  bill_id : Nat
  score : ℚ
deriving DecidableEq

/-- The pork-score rows of one bill (`WHERE bill_id = ?`). -/
def porkRows (db : List PorkScoreRow) (billId : Nat) : List PorkScoreRow :=
  db.filter (fun r => r.bill_id == billId)

/-- `high_pork_count` of `getPorkSummary`:
`SUM(CASE WHEN score >= 70 THEN 1 ELSE 0 END)`; SQL `SUM` over an empty row
set is NULL (`none`). -/
def highPorkCount (db : List PorkScoreRow) (billId : Nat) : Option Int :=
  if (porkRows db billId).isEmpty then none
  else some (((porkRows db billId).map
    (fun r => if (70 : ℚ) ≤ r.score then (1 : Int) else 0)).sum)

/-- The score bands of `pork-colors.ts`. -/
inductive PorkLevel
  | low
  | med
  | high
deriving DecidableEq

/-- `getPorkLevel` from `pork-colors.ts`: `score >= 60` is high,
`score >= 30` is med, otherwise low. -/
def getPorkLevel (score : ℚ) : PorkLevel :=
  if 60 ≤ score then .high else if 30 ≤ score then .med else .low

/-- `getPorkLabel` from `pork-colors.ts`. -/
def getPorkLabel (score : ℚ) : String :=
  if 60 ≤ score then "Pork" else if 30 ≤ score then "Watch" else "Clean"

/-- A row of the `spending_items` table: `amount_numeric` is NULL when the
raw amount text could not be parsed. -/
structure SpendingRow where
  bill_id : Nat
  amount_numeric : Option ℚ
deriving DecidableEq

/-- The spending rows of one bill (`WHERE bill_id = ?`). -/
def spendingRows (db : List SpendingRow) (billId : Nat) : List SpendingRow :=
  db.filter (fun r => r.bill_id == billId)

/-- `SUM(amount_numeric)`: SQL `SUM` skips NULL values and is itself NULL
when no non-NULL value exists. -/
def sqlSumAmounts (db : List SpendingRow) (billId : Nat) : Option ℚ :=
  let vs := (spendingRows db billId).filterMap (fun r => r.amount_numeric)
  if vs.isEmpty then none else some vs.sum

/-- `getTotalSpending`: `SELECT COALESCE(SUM(amount_numeric), 0) ...
WHERE bill_id = ?`. -/
def getTotalSpending (db : List SpendingRow) (billId : Nat) : ℚ :=
  (sqlSumAmounts db billId).getD 0

/-! ## Concrete inputs used by the claim theorems and witnesses -/

/-- No lowercase letter is immediately followed by a digit anywhere. -/
def noLowDigit : List Char → Bool
  | a :: b :: t => !(isLowerCh a && isDigitCh b) && noLowDigit (b :: t)
  | _ => true

/-- A line is digit-free. -/
def hasDigit (l : List Char) : Bool := l.any isDigitCh

/-- No two adjacent whitespace characters. -/
def okWS : List Char → Bool
  | a :: b :: t => !(isWSCh a && isWSCh b) && okWS (b :: t)
  | _ => true

/-- Every whitespace character is a plain space. -/
def allSp (l : List Char) : Bool := l.all (fun c => !isWSCh c || c = ' ')

/-- No run of three or more blank lines. -/
def noRun3 : List (List Char) → Bool
  | a :: b :: c :: t =>
    !(a.isEmpty && b.isEmpty && c.isEmpty) && noRun3 (b :: c :: t)
  | _ => true

/-- The spec's deadline example sentence. -/
def deadlineEx : List Char :=
  "The agency is directed to act not later than January 15, 2025, the Secretary shall submit a report to Congress.".data

/-- The deadline record the extractor produces from `deadlineEx`. -/
def deadlineExOut : Deadline :=
  ⟨"January 15, 2025".data,
   some "the Secretary shall submit a report to Congress".data,
   deadlineEx⟩

/-- A funding item whose source triggers exactly the earmark-phrase and
geographic signals, for a heuristic score of 40. -/
def exItem : FundingItem :=
  { amount_text := "$500,000".data
    amount_numeric := none
    purpose := none
    recipient := none
    availability := none
    fiscal_years := []
    source_text := "located in the 5th congressional district".data }

/-- A bill context for `exItem`. -/
def exCtx : BillContext :=
  { bill_title := "Defense Appropriations Act".data
    all_amounts := [] }

/-- Two entity rows for one bill whose names differ only by case and
whitespace. -/
def entDbEx : List EntityRow :=
  [⟨1, "Department of Energy".data, none, none⟩,
   ⟨1, "DEPARTMENT  OF  ENERGY".data, none, none⟩]

/-- One scored item at 65 points: labeled Pork, not counted as high pork. -/
def porkDbEx : List PorkScoreRow := [⟨1, 65⟩]

/-- A bill whose only spending item has an unparseable amount. -/
def spendDbEx : List SpendingRow := [⟨1, none⟩]

/-- Digit-free sample document for the cleaner idempotence witness. -/
def cleanWitnessDoc : List (List Char) :=
  ["  hello   world  ".data, "".data, "".data, "".data, "ok".data]

/-- Marker-free sample document for the chunker fallback witness. -/
def fallbackDoc : List Line :=
  ["a preamble line".data, "and more text".data]

/-! ## Helper lemmas -/

/-- Summing the 0/1 CASE column equals counting the qualifying rows. -/
theorem sum_case_eq_countP (rs : List PorkScoreRow) :
    (rs.map (fun r => if (70 : ℚ) ≤ r.score then (1 : Int) else 0)).sum
      = ((rs.countP (fun r => decide (70 ≤ r.score))) : Int) := by
  induction rs with
  | nil => simp
  | cons r rs ih =>
    by_cases h : (70 : ℚ) ≤ r.score
    · simp [List.countP_cons, h, ih]
      omega
    · simp [List.countP_cons, h, ih]

/-! ## Claim theorems -/

/-- C1: the blended score is `0.3 * heuristic + 0.7 * ai_score` when an
`ai_score` is supplied and the bare heuristic score otherwise; on an item
with heuristic score 40 and `ai_score` 80 the blend is 68. -/
theorem blended_score_policy :
    (∀ (it : FundingItem) (ctx : BillContext) (a : ℚ),
      (scoreItem it ctx (some a)).blended_score
        = 3 / 10 * (scoreItem it ctx (some a)).heuristic_score + 7 / 10 * a) ∧
    (∀ (it : FundingItem) (ctx : BillContext),
      (scoreItem it ctx none).blended_score = (scoreItem it ctx none).heuristic_score) ∧
    (scoreItem exItem exCtx (some 80)).heuristic_score = 40 ∧
    (scoreItem exItem exCtx (some 80)).blended_score = 68 := by
  have h1 : signalFlags exItem exCtx
      = [("earmark_phrase", (25 : ℚ)), ("geographic", (15 : ℚ))] := by decide
  have h40 : heuristicScore exItem exCtx = 40 := by
    rw [heuristicScore, h1]; norm_num [clampScore]
  refine ⟨fun it ctx a => rfl, fun it ctx => rfl, ?_, ?_⟩
  · simpa [scoreItem] using h40
  · simp only [scoreItem, h40]; norm_num

/-- C6: heuristic and blended scores always lie in `[0, 100]` (assuming a
supplied `ai_score` is itself in `[0, 100]`). -/
theorem score_bounds :
    ∀ (it : FundingItem) (ctx : BillContext) (ai : Option ℚ),
      (∀ a, ai = some a → 0 ≤ a ∧ a ≤ 100) →
      0 ≤ (scoreItem it ctx ai).heuristic_score ∧
        (scoreItem it ctx ai).heuristic_score ≤ 100 ∧
        0 ≤ (scoreItem it ctx ai).blended_score ∧
        (scoreItem it ctx ai).blended_score ≤ 100 := by
  intro it ctx ai hai
  have hcl : ∀ q : ℚ, 0 ≤ clampScore q ∧ clampScore q ≤ 100 := by
    intro q
    unfold clampScore
    split
    · norm_num
    · split
      · norm_num
      · constructor <;> linarith
  obtain ⟨hl, hr⟩ := hcl ((signalFlags it ctx).map (fun f => f.2)).sum
  have hh : (scoreItem it ctx ai).heuristic_score = heuristicScore it ctx := rfl
  cases ai with
  | none =>
    have hb : (scoreItem it ctx none).blended_score = heuristicScore it ctx := rfl
    rw [hh, hb, heuristicScore]
    exact ⟨hl, hr, hl, hr⟩
  | some a =>
    obtain ⟨ha0, ha1⟩ := hai a rfl
    have hb : (scoreItem it ctx (some a)).blended_score
        = 3 / 10 * heuristicScore it ctx + 7 / 10 * a := rfl
    rw [hh, hb, heuristicScore]
    refine ⟨hl, hr, by linarith, by linarith⟩

/-- C8 counterexample: `getEntities` performs SQL `DISTINCT` on the exact
(name, entity_type, role) triple, so two rows whose names differ only in
case and whitespace are both returned and the case/whitespace-insensitive
dedup property fails. -/
theorem getEntities_norm_dedup_counterexample :
    ¬ ((getEntities entDbEx 1).Pairwise
        (fun a b => normName a.name ≠ normName b.name)) := by decide

/-- C8 amended: `getEntities` deduplicates by exact equality of the
selected (name, entity_type, role) triple — the returned list has no two
identical records, and a record is returned iff some row of the bill
projects to it. -/
theorem getEntities_exact_distinct :
    ∀ (db : List EntityRow) (billId : Nat),
      (getEntities db billId).Nodup ∧
      ∀ e, e ∈ getEntities db billId ↔
        e ∈ (db.filter (fun r => r.bill_id == billId)).map toEntityRec := by
  intro db billId
  exact ⟨List.nodup_dedup _, fun e => List.mem_dedup⟩

/-- C9: `high_pork_count` counts the bill's rows with `score >= 70`, while
`getPorkLevel`/`getPorkLabel` classify `score >= 60` as "Pork"; a score in
`[60, 70)` is labeled Pork yet contributes 0 to the high-pork count. -/
theorem getPorkSummary_high_threshold :
    ∀ (db : List PorkScoreRow) (billId : Nat),
      (highPorkCount db billId =
        if (porkRows db billId).isEmpty then none
        else some ((porkRows db billId).countP (fun r => decide (70 ≤ r.score)) : Int)) ∧
      ∀ s : ℚ, 60 ≤ s → s < 70 →
        getPorkLabel s = "Pork" ∧ getPorkLevel s = PorkLevel.high ∧
          (if (70 : ℚ) ≤ s then (1 : Int) else 0) = 0 := by
  intro db billId
  constructor
  · simp only [highPorkCount, sum_case_eq_countP]
  · intro s h60 h70
    refine ⟨?_, ?_, ?_⟩
    · rw [getPorkLabel, if_pos h60]
    · rw [getPorkLevel, if_pos h60]
    · rw [if_neg (not_le.mpr h70)]

/-- C9 witness at a bill holding one item scored 65. -/
theorem getPorkSummary_high_threshold_witness :
    (highPorkCount porkDbEx 1 =
      if (porkRows porkDbEx 1).isEmpty then none
      else some ((porkRows porkDbEx 1).countP (fun r => decide (70 ≤ r.score)) : Int)) ∧
    (getPorkLabel 65 = "Pork" ∧ getPorkLevel 65 = PorkLevel.high ∧
      (if (70 : ℚ) ≤ (65 : ℚ) then (1 : Int) else 0) = 0) :=
  ⟨(getPorkSummary_high_threshold porkDbEx 1).1,
   (getPorkSummary_high_threshold porkDbEx 1).2 65 (by norm_num) (by norm_num)⟩

/-- C10: `getTotalSpending` sums exactly the non-NULL `amount_numeric`
values of the bill's spending rows, and `COALESCE` turns the NULL SQL sum
(no rows, or only NULL amounts) into 0. -/
theorem getTotalSpending_sum_nonnull :
    ∀ (db : List SpendingRow) (billId : Nat),
      getTotalSpending db billId
          = ((spendingRows db billId).filterMap (fun r => r.amount_numeric)).sum ∧
      ((∀ r ∈ spendingRows db billId, r.amount_numeric = none) →
        sqlSumAmounts db billId = none ∧ getTotalSpending db billId = 0) := by
  intro db billId
  have hsum : getTotalSpending db billId
      = ((spendingRows db billId).filterMap (fun r => r.amount_numeric)).sum := by
    rw [getTotalSpending, sqlSumAmounts]
    by_cases h : ((spendingRows db billId).filterMap (fun r => r.amount_numeric)).isEmpty
    · rw [List.isEmpty_iff] at h
      simp [h]
    · simp [h]
  refine ⟨hsum, fun hall => ?_⟩
  have hnil : (spendingRows db billId).filterMap (fun r => r.amount_numeric) = [] := by
    rw [List.filterMap_eq_nil_iff]
    exact hall
  constructor
  · rw [sqlSumAmounts]
    simp [hnil]
  · rw [hsum, hnil]
    rfl

/-- C10 witness at a bill whose only item has a NULL amount. -/
theorem getTotalSpending_sum_nonnull_witness :
    sqlSumAmounts spendDbEx 1 = none ∧ getTotalSpending spendDbEx 1 = 0 :=
  (getTotalSpending_sum_nonnull spendDbEx 1).2 (by decide)

/-- C6 witness at the example item and `ai_score = 50`. -/
theorem score_bounds_witness :
    0 ≤ (scoreItem exItem exCtx (some 50)).heuristic_score ∧
      (scoreItem exItem exCtx (some 50)).heuristic_score ≤ 100 ∧
      0 ≤ (scoreItem exItem exCtx (some 50)).blended_score ∧
      (scoreItem exItem exCtx (some 50)).blended_score ≤ 100 :=
  score_bounds exItem exCtx (some 50) (by intro a ha; cases ha; norm_num)

/-- `noLowDigit` is closed under dropping the head. -/
theorem noLowDigit_tail {a : Char} {t : List Char}
    (h : noLowDigit (a :: t) = true) : noLowDigit t = true := by
  cases t with
  | nil => rfl
  | cons b t2 =>
    rw [noLowDigit] at h
    simp only [Bool.and_eq_true] at h
    exact h.2

/-- On text where no lowercase letter is immediately followed by a digit
the OCR scanner is the identity, both from the idle state and with a
pending lowercase letter. -/
theorem ocrScan_id (l : List Char) :
    (noLowDigit l = true → ocrScan .idle l = l) ∧
    (∀ c, isLowerCh c = true → noLowDigit (c :: l) = true →
      ocrScan (.low c []) l = c :: l) := by
  induction l with
  | nil => exact ⟨fun _ => rfl, fun c _ _ => rfl⟩
  | cons x rest ih =>
    constructor
    · intro h
      rw [ocrScan]
      by_cases hx : isLowerCh x = true
      · rw [if_pos hx]
        exact ih.2 x hx h
      · rw [if_neg hx, ih.1 (noLowDigit_tail h)]
    · intro c hc h
      have hxd : isDigitCh x = false := by
        rw [noLowDigit] at h
        simp only [Bool.and_eq_true] at h
        by_cases h1 : isDigitCh x = true
        · exfalso
          have := h.1
          rw [hc, h1] at this
          simp at this
        · simpa using h1
      rw [ocrScan, if_neg (by rw [hxd]; simp)]
      have hds : (!(([] : List Char)).isEmpty && x = ' ') = false := by simp
      rw [if_neg (by rw [hds]; simp)]
      by_cases hx : isLowerCh x = true
      · rw [if_pos hx]
        rw [ih.2 x hx (noLowDigit_tail h)]
        rfl
      · rw [if_neg hx, ih.1 (noLowDigit_tail (noLowDigit_tail h))]
        rfl

/-- C5: the OCR repair deletes an embedded digit run only between two
lowercase fragments: any text with no lowercase-then-digit adjacency is
untouched; `strate2 gies` becomes `strategies` while `42 U.S.C. 3030a`
is left completely unmodified. -/
theorem ocr_repair_precision :
    (∀ l, noLowDigit l = true → ocrFix l = l) ∧
    ocrFix "strate2 gies".data = "strategies".data ∧
    ocrFix "42 U.S.C. 3030a".data = "42 U.S.C. 3030a".data := by
  refine ⟨fun l h => (ocrScan_id l).1 h, by decide, by decide⟩

/-- C5 witness: a line with no lowercase-then-digit adjacency passes
through the OCR repair unchanged. -/
theorem ocr_repair_precision_witness :
    noLowDigit "Public Law 118-42".data = true ∧
      ocrFix "Public Law 118-42".data = "Public Law 118-42".data :=
  ⟨by decide, ocr_repair_precision.1 "Public Law 118-42".data (by decide)⟩

/-- `findPat` returns a genuine decomposition of its input. -/
theorem findPat_split (pat : List Char) :
    ∀ (l pre suf : List Char), findPat pat l = some (pre, suf) →
      l = pre ++ pat ++ suf := by
  intro l
  induction l with
  | nil =>
    intro pre suf h
    by_cases hp : pat.isEmpty
    · rw [findPat, if_pos hp] at h
      obtain ⟨h1, h2⟩ := Prod.mk.injEq .. ▸ Option.some.inj h
      rw [List.isEmpty_iff] at hp
      simp [← h1, ← h2, hp]
    · rw [findPat, if_neg hp] at h
      exact absurd h (by simp)
  | cons c rest ih =>
    intro pre suf h
    rw [findPat] at h
    by_cases hp : pat.isPrefixOf (c :: rest) = true
    · rw [if_pos hp] at h
      obtain ⟨h1, h2⟩ := Prod.mk.injEq .. ▸ Option.some.inj h
      obtain ⟨t, ht⟩ := List.isPrefixOf_iff_prefix.mp hp
      have hd : (c :: rest).drop pat.length = t := by
        rw [← ht, List.drop_left]
      rw [← h1, ← h2, hd, ← ht]
      simp
    · rw [if_neg hp] at h
      cases hfp : findPat pat rest with
      | none => rw [hfp] at h; exact absurd h (by simp)
      | some pr =>
        rw [hfp] at h
        simp only [Option.map_some'] at h
        obtain ⟨h1, h2⟩ := Prod.mk.injEq .. ▸ Option.some.inj h
        have := ih pr.1 pr.2 (by rw [hfp])
        rw [← h1, ← h2]
        simp [this]

/-- `parseDate` returns a genuine decomposition of its input. -/
theorem parseDate_split :
    ∀ (l dt rest : List Char), parseDate l = some (dt, rest) → l = dt ++ rest := by
  intro l dt rest h
  rw [parseDate] at h
  split at h
  next => exact absurd h (by simp)
  next m heq1 =>
    split at h
    next r2 heq2 =>
      split at h
      next => exact absurd h (by simp)
      next hday =>
        split at h
        next r4 heq3 =>
          split at h
          next hyr =>
            obtain ⟨h1, h2⟩ := Prod.mk.injEq .. ▸ Option.some.inj h
            have hmp : m.isPrefixOf l = true := by
              have h9 := List.find?_some heq1
              simpa using h9
            obtain ⟨t, ht⟩ := List.isPrefixOf_iff_prefix.mp hmp
            have hdl : l.drop m.length = t := by rw [← ht, List.drop_left]
            have htt : t = ' ' :: r2 := by rw [← hdl, heq2]
            have hl2 : l = m ++ ' ' :: r2 := by rw [← ht, htt]
            have e2 : r2.takeWhile isDigitCh ++ (',' :: ' ' :: r4) = r2 := by
              conv_rhs => rw [← List.takeWhile_append_dropWhile (p := isDigitCh) (l := r2)]
              rw [heq3]
            have e4 : r4.takeWhile isDigitCh ++ r4.dropWhile isDigitCh = r4 :=
              List.takeWhile_append_dropWhile ..
            rw [hl2, ← h1, ← h2]
            simp only [List.append_assoc, List.cons_append, List.nil_append]
            rw [e4, e2]
          next => exact absurd h (by simp)
        next => exact absurd h (by simp)
    next => exact absurd h (by simp)

/-- The action captured by `mkAction` is drawn from its input text. -/
theorem mkAction_from (rest a : List Char) (h : mkAction rest = some a) :
    ∃ x y, rest = x ++ a ++ y := by
  rw [mkAction] at h
  split at h
  · exact absurd h (by simp)
  split at h
  · exact absurd h (by simp)
  split at h
  · exact absurd h (by simp)
  split at h
  · exact absurd h (by simp)
  have ha : (rest.dropWhile actionTrimCh).takeWhile (fun c => c ≠ '.') = a :=
    Option.some.inj h
  refine ⟨rest.takeWhile actionTrimCh,
    (rest.dropWhile actionTrimCh).dropWhile (fun c => c ≠ '.'), ?_⟩
  conv_lhs => rw [← List.takeWhile_append_dropWhile (p := actionTrimCh) (l := rest)]
  rw [List.append_assoc, ← ha]
  congr 1
  exact (List.takeWhile_append_dropWhile ..).symm

/-- C4: every action the deadline extractor captures begins lexically
after the deadline's date token (it is drawn from the text following the
date, never from text preceding it); on the spec's example the date is
`January 15, 2025` and the action starts with
`the Secretary shall submit`. -/
theorem deadline_forward_capture :
    (∀ (l : List Char) (d : Deadline), extractDeadline l = some d →
      ∃ pre rest, l = pre ++ nltPat ++ d.date_text ++ rest ∧
        ∀ a, d.action = some a → ∃ x y, rest = x ++ a ++ y) ∧
    (extractDeadline deadlineEx = some deadlineExOut ∧
      deadlineExOut.date_text = "January 15, 2025".data ∧
      ∃ a, deadlineExOut.action = some a ∧
        "the Secretary shall submit".data.isPrefixOf a = true) := by
  constructor
  · intro l d h
    rw [extractDeadline] at h
    split at h
    next => exact absurd h (by simp)
    next pr0 suf hfp =>
      split at h
      next => exact absurd h (by simp)
      next dt rest hpd =>
        have hd : d = ⟨dt, mkAction rest, l⟩ := (Option.some.inj h).symm
        have hsplit : l = pr0 ++ nltPat ++ suf := findPat_split nltPat l pr0 suf hfp
        have hdate : suf = dt ++ rest := parseDate_split suf dt rest hpd
        refine ⟨pr0, rest, ?_, ?_⟩
        · rw [hd]
          rw [hsplit, hdate]
          simp [List.append_assoc]
        · intro a ha
          rw [hd] at ha
          exact mkAction_from rest a ha
  · refine ⟨by decide, by decide,
      "the Secretary shall submit a report to Congress".data, by decide, by decide⟩

/-- C4 witness: the forward-capture decomposition applied to the spec's
example sentence. -/
theorem deadline_forward_capture_witness :
    ∃ pre rest, deadlineEx = pre ++ nltPat ++ deadlineExOut.date_text ++ rest ∧
      ∀ a, deadlineExOut.action = some a → ∃ x y, rest = x ++ a ++ y :=
  deadline_forward_capture.1 deadlineEx deadlineExOut (by decide)

/-- Mapping over a flattened list of lists. -/
theorem map_flatten_eq {α β : Type} (f : α → β) :
    ∀ (L : List (List α)), L.flatten.map f = (L.map (List.map f)).flatten := by
  intro L
  induction L with
  | nil => rfl
  | cons g L ih => simp [ih]

/-- Flattening twice equals flattening the once-flattened pieces. -/
theorem flatten_flatten_eq {α : Type} :
    ∀ (L : List (List (List α))), L.flatten.flatten = (L.map List.flatten).flatten := by
  intro L
  induction L with
  | nil => rfl
  | cons g L ih => simp [ih]

/-- The structural grouping scanner loses no line. -/
theorem sgAux_flatten :
    ∀ (ls cur : List Line), (sgAux cur ls).flatten = cur.reverse ++ ls := by
  intro ls
  induction ls with
  | nil => intro cur; simp [sgAux]
  | cons l rest ih =>
    intro cur
    rw [sgAux]
    by_cases hm : isMarker l = true
    · rw [if_pos hm]
      simp [ih]
    · rw [if_neg hm]
      rw [ih]
      simp

/-- `structuralGroups` is a partition of the input lines. -/
theorem structuralGroups_flatten (lines : List Line) :
    (structuralGroups lines).flatten = lines := by
  have h := sgAux_flatten lines []
  rw [structuralGroups]
  cases hsg : sgAux [] lines with
  | nil => rw [hsg] at h; simpa using h.symm
  | cons g gs =>
    rw [hsg] at h
    simp only [List.reverse_nil, List.nil_append] at h
    show (if g.isEmpty = true then gs else g :: gs).flatten = lines
    by_cases hg : g.isEmpty
    · rw [if_pos hg]
      rw [List.isEmpty_iff] at hg
      rw [hg] at h
      simpa using h
    · rw [if_neg hg]
      exact h

/-- Labeling does not change the grouped lines. -/
theorem labelGroups_glines :
    ∀ (gs : List (List Line)) (d t : Option Line),
      (labelGroups d t gs).map LChunk.glines = gs := by
  intro gs
  induction gs with
  | nil => intro d t; rfl
  | cons g gs ih =>
    intro d t
    rw [labelGroups]
    cases hh : g.head? with
    | none => simp [ih]
    | some x =>
      by_cases hd : isDivisionLine x = true
      · simp [hd, ih]
      · by_cases ht : isTitleLine x = true
        · simp [hd, ht, ih]
        · simp [hd, ht, ih]

/-- Oversize splitting loses no line. -/
theorem splitGroup_flatten (m : Nat) :
    ∀ (n : Nat) (g : List Line), g.length ≤ n → (splitGroup m g).flatten = g := by
  intro n
  induction n with
  | zero =>
    intro g hg
    have : g = [] := List.length_eq_zero.mp (Nat.le_zero.mp hg)
    subst this
    rw [splitGroup]
    simp [groupChars]
  | succ n ih =>
    intro g hg
    rw [splitGroup]
    split
    · simp
    · split
      · simp
      · split
        · next i hsp h2 =>
          simp only [List.flatten_cons]
          rw [ih (g.drop i) (by simp only [List.length_drop]; omega)]
          exact List.take_append_drop i g
        · simp

/-- Expanding a labeled group projects back to its oversize split. -/
theorem expandGroup_glines (m : Nat) (c : LChunk) :
    (expandGroup m c).map LChunk.glines = splitGroup m c.glines := by
  rw [expandGroup, List.map_map]
  have h : (LChunk.glines ∘ fun g => (⟨g, c.division, c.title⟩ : LChunk)) = id := rfl
  rw [h, List.map_id]

/-- `withPos` keeps the grouped lines. -/
theorem withPos_text :
    ∀ (cs : List LChunk) (n : Nat), (withPos n cs).map Chunk.text = cs.map LChunk.glines := by
  intro cs
  induction cs with
  | nil => intro n; rfl
  | cons c cs ih => intro n; simp [withPos, ih]

/-- `withPos` assigns consecutive positions starting at `n`. -/
theorem withPos_pos :
    ∀ (cs : List LChunk) (n : Nat), (withPos n cs).map Chunk.position = List.range' n cs.length := by
  intro cs
  induction cs with
  | nil => intro n; rfl
  | cons c cs ih => intro n; simp [withPos, ih, List.range'_succ]

/-- `withPos` preserves the number of chunks. -/
theorem withPos_len :
    ∀ (cs : List LChunk) (n : Nat), (withPos n cs).length = cs.length := by
  intro cs
  induction cs with
  | nil => intro n; rfl
  | cons c cs ih => intro n; simp [withPos, ih]

/-- The fixed-size grouping scanner loses no line. -/
theorem fsAux_flatten (m : Nat) :
    ∀ (ls cur : List Line) (size : Nat),
      (fsAux m cur size ls).flatten = cur.reverse ++ ls := by
  intro ls
  induction ls with
  | nil =>
    intro cur size
    rw [fsAux]
    by_cases hc : cur.isEmpty
    · rw [if_pos hc, List.isEmpty_iff.mp hc]
      rfl
    · rw [if_neg hc]
      simp
  | cons l rest ih =>
    intro cur size
    rw [fsAux]
    by_cases hc : cur.isEmpty
    · rw [if_pos hc, List.isEmpty_iff.mp hc, ih]
      rfl
    · rw [if_neg hc]
      by_cases hs : size + 1 + l.length ≤ m
      · rw [if_pos hs, ih]
        simp
      · rw [if_neg hs]
        simp [ih]

/-- C2: for every document and either chunking strategy, the chunks form a
complete order-preserving partition of the input lines (concatenating the
chunk texts in position order reconstructs the input), and the `position`
values are exactly `0, 1, 2, ...` with no gap. -/
theorem chunk_partition_complete :
    ∀ (lines : List Line) (strat : ChunkStrategy) (maxc : Nat),
      ((chunkDoc lines strat maxc).map Chunk.text).flatten = lines ∧
      (chunkDoc lines strat maxc).map Chunk.position
          = List.range (chunkDoc lines strat maxc).length := by
  intro lines strat maxc
  have hpos : ∀ cs : List LChunk,
      (withPos 0 cs).map Chunk.position = List.range (withPos 0 cs).length := by
    intro cs
    rw [withPos_pos, withPos_len, List.range_eq_range']
  cases strat with
  | fixedSize =>
    refine ⟨?_, hpos _⟩
    simp only [chunkDoc]
    rw [withPos_text, List.map_map]
    have h : (LChunk.glines ∘ fun g => (⟨g, none, none⟩ : LChunk)) = id := rfl
    rw [h, List.map_id, fsAux_flatten]
    rfl
  | structural =>
    by_cases hm : (lines.all fun l => !isMarker l) = true
    · constructor
      · simp [chunkDoc, hm, withPos]
      · simp only [chunkDoc, hm, if_pos]
        exact hpos _
    · constructor
      · simp only [chunkDoc, hm, if_neg, Bool.false_eq_true, not_false_iff]
        rw [withPos_text, map_flatten_eq, List.map_map]
        have hcomp : ((labelGroups none none (structuralGroups lines)).map
              (List.map LChunk.glines ∘ expandGroup maxc))
            = (labelGroups none none (structuralGroups lines)).map
              (fun c => splitGroup maxc c.glines) := by
          apply List.map_congr_left
          intro c _
          exact expandGroup_glines maxc c
        rw [hcomp, flatten_flatten_eq, List.map_map]
        have hsp : ((labelGroups none none (structuralGroups lines)).map
              (List.flatten ∘ fun c => splitGroup maxc c.glines))
            = (labelGroups none none (structuralGroups lines)).map LChunk.glines := by
          apply List.map_congr_left
          intro c _
          exact splitGroup_flatten maxc c.glines.length c.glines (Nat.le_refl _)
        rw [hsp, labelGroups_glines, structuralGroups_flatten]
      · simp only [chunkDoc, hm, if_neg, Bool.false_eq_true, not_false_iff]
        exact hpos _

/-- C7: when the structural strategy finds no marker, the chunker returns
exactly one chunk covering the whole document with no division or title
label, so callers detect the degraded mode by chunk count 1. -/
theorem structural_fallback_single_chunk :
    ∀ (lines : List Line) (maxc : Nat),
      (lines.all fun l => !isMarker l) = true →
      chunkDoc lines .structural maxc
          = [⟨lines, none, none, 0, groupChars lines⟩] ∧
        (chunkDoc lines .structural maxc).length = 1 := by
  intro lines maxc h
  have hh : chunkDoc lines .structural maxc
      = [⟨lines, none, none, 0, groupChars lines⟩] := by
    simp [chunkDoc, h, withPos]
  exact ⟨hh, by rw [hh]; rfl⟩

/-- C7 witness on a concrete marker-free document. -/
theorem structural_fallback_single_chunk_witness :
    chunkDoc fallbackDoc .structural 5
        = [⟨fallbackDoc, none, none, 0, groupChars fallbackDoc⟩] ∧
      (chunkDoc fallbackDoc .structural 5).length = 1 :=
  structural_fallback_single_chunk fallbackDoc 5 (by decide)

/-- Collapsing starts by emitting a non-whitespace head unchanged. -/
theorem collapseWS_cons_not_ws {x : Char} (xs : List Char)
    (hx : isWSCh x = false) : collapseWS (x :: xs) = x :: collapseWS xs := by
  cases xs with
  | nil => simp [collapseWS, hx]
  | cons y ys => simp [collapseWS, hx]

/-- A cons with non-whitespace head keeps `okWS`. -/
theorem okWS_cons_fst {a : Char} {t : List Char}
    (ha : isWSCh a = false) (ht : okWS t = true) : okWS (a :: t) = true := by
  cases t with
  | nil => rfl
  | cons b t2 => simp [okWS, ha, ht]

/-- A cons whose second element is non-whitespace keeps `okWS`. -/
theorem okWS_cons_snd {a b : Char} {t : List Char}
    (hb : isWSCh b = false) (ht : okWS (b :: t) = true) :
    okWS (a :: b :: t) = true := by
  simp [okWS, hb, ht]

/-- The collapsed line has no adjacent whitespace and only plain spaces. -/
theorem collapseWS_ok :
    ∀ l : List Char, okWS (collapseWS l) = true ∧ allSp (collapseWS l) = true := by
  intro l
  induction l with
  | nil => exact ⟨rfl, rfl⟩
  | cons c rest ih =>
    cases rest with
    | nil =>
      constructor
      · rfl
      · by_cases hc : isWSCh c = true
        · simp [collapseWS, allSp, hc]
        · simp [collapseWS, allSp, hc]
    | cons c2 rest2 =>
      by_cases h12 : (isWSCh c && isWSCh c2) = true
      · rw [collapseWS, if_pos h12]
        exact ih
      · rw [collapseWS, if_neg h12]
        constructor
        · by_cases hc : isWSCh c = true
          · have hc2 : isWSCh c2 = false := by
              by_cases k : isWSCh c2 = true
              · exact absurd (by rw [hc, k]; rfl) h12
              · simpa using k
            rw [if_pos hc, collapseWS_cons_not_ws rest2 hc2]
            have := ih.1
            rw [collapseWS_cons_not_ws rest2 hc2] at this
            exact okWS_cons_snd hc2 this
          · rw [if_neg hc]
            exact okWS_cons_fst (by simpa using hc) ih.1
        · have hall := ih.2
          by_cases hc : isWSCh c = true
          · rw [if_pos hc]
            simp [allSp] at hall ⊢
            exact hall
          · rw [if_neg hc]
            simp [allSp, hc] at hall ⊢
            exact hall

/-- Collapsing is the identity on already-collapsed lines. -/
theorem collapseWS_fix :
    ∀ l : List Char, okWS l = true → allSp l = true → collapseWS l = l := by
  intro l
  induction l with
  | nil => intro _ _; rfl
  | cons c rest ih =>
    intro hok hsp
    cases rest with
    | nil =>
      by_cases hc : isWSCh c = true
      · have : c = ' ' := by
          simp [allSp, hc] at hsp
          exact hsp
        simp [collapseWS, hc, this]
      · simp [collapseWS, hc]
    | cons c2 rest2 =>
      have h12 : ¬(isWSCh c && isWSCh c2) = true := by
        rw [okWS] at hok
        rcases Bool.and_eq_true .. ▸ hok with ⟨h1, _⟩
        simp only [Bool.not_eq_true'] at h1
        simp [h1]
      rw [collapseWS, if_neg h12]
      have htl : okWS (c2 :: rest2) = true := by
        rw [okWS] at hok
        rcases Bool.and_eq_true .. ▸ hok with ⟨_, h2⟩
        exact h2
      have hsp2 : allSp (c2 :: rest2) = true := by
        simp [allSp] at hsp ⊢
        exact hsp.2
      rw [ih htl hsp2]
      by_cases hc : isWSCh c = true
      · have : c = ' ' := by
          simp [allSp, hc] at hsp
          exact hsp.1
        rw [if_pos hc, this]
      · rw [if_neg hc]

/-- `dropWhile` is idempotent. -/
theorem dropWhile_idem {α : Type} (p : α → Bool) :
    ∀ l : List α, (l.dropWhile p).dropWhile p = l.dropWhile p := by
  intro l
  induction l with
  | nil => rfl
  | cons c t ih =>
    by_cases hc : p c = true
    · rw [List.dropWhile_cons_of_pos hc, ih]
    · have hc2 : p c = false := by simpa using hc
      rw [List.dropWhile_cons_of_neg (by simp [hc2])]
      rw [List.dropWhile_cons_of_neg (by simp [hc2])]

/-- Every line splits as its trailing-trimmed part plus trailing whitespace. -/
theorem rtrim_decomp (l : List Char) :
    ∃ w, l = rtrim l ++ w ∧ ∀ c ∈ w, isWSCh c = true := by
  refine ⟨(l.reverse.takeWhile isWSCh).reverse, ?_, ?_⟩
  · rw [rtrim]
    conv_lhs => rw [← List.reverse_reverse l]
    rw [← List.reverse_append]
    congr 1
    exact (List.takeWhile_append_dropWhile ..).symm
  · intro c hc
    rw [List.mem_reverse] at hc
    exact List.mem_takeWhile_imp hc

/-- Trailing-trim is idempotent. -/
theorem rtrim_idem (l : List Char) : rtrim (rtrim l) = rtrim l := by
  rw [rtrim, rtrim, List.reverse_reverse, dropWhile_idem]

/-- `okWS` holds on any left factor. -/
theorem okWS_append_left :
    ∀ (a b : List Char), okWS (a ++ b) = true → okWS a = true := by
  intro a
  induction a with
  | nil => intro b _; rfl
  | cons x a2 ih =>
    intro b h
    cases a2 with
    | nil => rfl
    | cons y a3 =>
      have h9 : okWS (x :: y :: (a3 ++ b)) = true := by simpa using h
      rw [okWS] at h9
      rcases Bool.and_eq_true .. ▸ h9 with ⟨h1, h2⟩
      have h3 : okWS (y :: a3) = true := ih b (by simpa using h2)
      rw [okWS, h1, h3]
      rfl

/-- Trailing-trim keeps `okWS`. -/
theorem okWS_rtrim (l : List Char) (h : okWS l = true) : okWS (rtrim l) = true := by
  obtain ⟨w, hw, _⟩ := rtrim_decomp l
  rw [hw] at h
  exact okWS_append_left (rtrim l) w h

/-- Trailing-trim keeps `allSp`. -/
theorem allSp_rtrim (l : List Char) (h : allSp l = true) : allSp (rtrim l) = true := by
  obtain ⟨w, hw, _⟩ := rtrim_decomp l
  rw [allSp, List.all_eq_true] at h ⊢
  intro c hc
  exact h c (by rw [hw]; exact List.mem_append_left w hc)

/-- Line normalization is idempotent. -/
theorem normalizeLine_idem (l : List Char) :
    normalizeLine (normalizeLine l) = normalizeLine l := by
  rw [normalizeLine, normalizeLine]
  obtain ⟨hok, hsp⟩ := collapseWS_ok l
  rw [collapseWS_fix (rtrim (collapseWS l)) (okWS_rtrim _ hok) (allSp_rtrim _ hsp)]
  exact rtrim_idem _

/-- The canonical pattern form of a line is unchanged by normalization. -/
theorem canonLine_normalizeLine (l : List Char) :
    canonLine (normalizeLine l) = canonLine l := by
  rw [canonLine, canonLine, normalizeLine, trimEnds, trimEnds]
  obtain ⟨hok, hsp⟩ := collapseWS_ok l
  rw [collapseWS_fix (rtrim (collapseWS l)) (okWS_rtrim _ hok) (allSp_rtrim _ hsp)]
  rw [rtrim_idem]

/-- Line removal judges a normalized line exactly as the original. -/
theorem keepLine_normalizeLine (l : List Char) :
    keepLine (normalizeLine l) = keepLine l := by
  simp only [keepLine, removeLine, isRevDateLine, isJobTicketLine, isXmlRefLine,
    isWinPathLine, isPageNumLine, isTimestampLine, canonLine_normalizeLine]

/-- The line-number strip is the identity on digit-free lines. -/
theorem stripLineNum_of_no_digit (l : List Char) (h : hasDigit l = false) :
    stripLineNum l = l := by
  cases l with
  | nil => rfl
  | cons c t =>
    have hd : isDigitCh c = false := by
      rw [hasDigit] at h
      simp only [List.any_cons, Bool.or_eq_false_iff] at h
      exact h.1
    rw [stripLineNum]
    simp only [List.takeWhile_cons, List.dropWhile_cons, hd]
    split
    next r heqr =>
      have hc : c = ' ' := (List.cons.injEq .. ▸ heqr).1
      subst hc
      simp
    next => rfl

/-- Digit-free text has no lowercase-then-digit adjacency. -/
theorem noLowDigit_of_no_digit :
    ∀ l : List Char, hasDigit l = false → noLowDigit l = true := by
  intro l
  induction l with
  | nil => intro _; rfl
  | cons a t ih =>
    intro h
    have ht : hasDigit t = false := by
      rw [hasDigit] at h
      simp only [List.any_cons, Bool.or_eq_false_iff] at h
      rw [hasDigit]
      exact h.2
    cases t with
    | nil => rfl
    | cons b t2 =>
      have hb : isDigitCh b = false := by
        rw [hasDigit] at ht
        simp only [List.any_cons, Bool.or_eq_false_iff] at ht
        exact ht.1
      rw [noLowDigit, hb]
      simp [ih ht]

/-- OCR repair is the identity on digit-free lines. -/
theorem ocrFix_of_no_digit (l : List Char) (h : hasDigit l = false) :
    ocrFix l = l :=
  (ocrScan_id l).1 (noLowDigit_of_no_digit l h)

/-- Collapsing introduces only spaces. -/
theorem mem_collapseWS :
    ∀ (l : List Char) (c : Char), c ∈ collapseWS l → c = ' ' ∨ c ∈ l := by
  intro l
  induction l with
  | nil => intro c hc; exact absurd hc (by simp [collapseWS])
  | cons x rest ih =>
    intro c hc
    cases rest with
    | nil =>
      rw [collapseWS] at hc
      simp only [List.mem_singleton] at hc
      by_cases hx : isWSCh x = true
      · rw [if_pos hx] at hc
        exact Or.inl hc
      · rw [if_neg hx] at hc
        exact Or.inr (by simp [hc])
    | cons y rest2 =>
      rw [collapseWS] at hc
      by_cases h12 : (isWSCh x && isWSCh y) = true
      · rw [if_pos h12] at hc
        rcases ih c hc with h | h
        · exact Or.inl h
        · exact Or.inr (List.mem_cons_of_mem x h)
      · rw [if_neg h12] at hc
        rcases List.mem_cons.mp hc with h | h
        · by_cases hx : isWSCh x = true
          · rw [if_pos hx] at h
            exact Or.inl h
          · rw [if_neg hx] at h
            exact Or.inr (by simp [h])
        · rcases ih c h with h2 | h2
          · exact Or.inl h2
          · exact Or.inr (List.mem_cons_of_mem x h2)

/-- Trailing-trim keeps only original characters. -/
theorem mem_rtrim (l : List Char) (c : Char) (hc : c ∈ rtrim l) : c ∈ l := by
  obtain ⟨w, hw, _⟩ := rtrim_decomp l
  rw [hw]
  exact List.mem_append_left w hc

/-- Normalization cannot introduce digits. -/
theorem hasDigit_normalizeLine (l : List Char) (h : hasDigit l = false) :
    hasDigit (normalizeLine l) = false := by
  rw [hasDigit, List.any_eq_false]
  intro c hc
  have hc2 := mem_rtrim _ c hc
  rcases mem_collapseWS l c hc2 with h2 | h2
  · subst h2
    simp [isDigitCh]
  · rw [hasDigit, List.any_eq_false] at h
    exact h c h2

/-- Blank-run collapsing emits only blank lines or original lines. -/
theorem mem_cbAux :
    ∀ (ls : List (List Char)) (n : Nat) (x : List Char),
      x ∈ cbAux n ls → x = [] ∨ x ∈ ls := by
  intro ls
  induction ls with
  | nil =>
    intro n x hx
    rw [cbAux] at hx
    by_cases h3 : 3 ≤ n
    · rw [if_pos h3] at hx
      exact Or.inl (by simpa using hx)
    · rw [if_neg h3] at hx
      exact Or.inl (List.eq_of_mem_replicate hx)
  | cons l rest ih =>
    intro n x hx
    rw [cbAux] at hx
    by_cases hl : l.isEmpty = true
    · rw [if_pos hl] at hx
      rcases ih (n + 1) x hx with h | h
      · exact Or.inl h
      · exact Or.inr (List.mem_cons_of_mem l h)
    · rw [if_neg hl] at hx
      rcases List.mem_append.mp hx with h | h
      · left
        by_cases h3 : 3 ≤ n
        · rw [if_pos h3] at h
          simpa using h
        · rw [if_neg h3] at h
          exact List.eq_of_mem_replicate h
      · rcases List.mem_cons.mp h with h2 | h2
        · exact Or.inr (by simp [h2])
        · rcases ih 0 x h2 with h3 | h3
          · exact Or.inl h3
          · exact Or.inr (List.mem_cons_of_mem l h3)

/-- `noRun3` is closed under dropping the head. -/
theorem noRun3_tail {a : List Char} {w : List (List Char)}
    (h : noRun3 (a :: w) = true) : noRun3 w = true := by
  cases w with
  | nil => rfl
  | cons b w2 =>
    cases w2 with
    | nil => rfl
    | cons c w3 =>
      rw [noRun3] at h
      rcases Bool.and_eq_true .. ▸ h with ⟨_, h2⟩
      exact h2

/-- Prepending a non-blank line keeps `noRun3`. -/
theorem noRun3_cons_nonblank {x : List Char} {w : List (List Char)}
    (hx : x.isEmpty = false) (h : noRun3 w = true) : noRun3 (x :: w) = true := by
  cases w with
  | nil => rfl
  | cons b w2 =>
    cases w2 with
    | nil => rfl
    | cons c w3 =>
      rw [noRun3, hx]
      simp [h]

/-- Prepending one blank line before a non-blank line keeps `noRun3`. -/
theorem noRun3_blank1 {x : List Char} {w : List (List Char)}
    (hx : x.isEmpty = false) (h : noRun3 (x :: w) = true) :
    noRun3 ([] :: x :: w) = true := by
  cases w with
  | nil => rfl
  | cons b w2 =>
    rw [noRun3, hx]
    simp [h]

/-- Prepending two blank lines before a non-blank line keeps `noRun3`. -/
theorem noRun3_blank2 {x : List Char} {w : List (List Char)}
    (hx : x.isEmpty = false) (h : noRun3 (x :: w) = true) :
    noRun3 ([] :: [] :: x :: w) = true := by
  rw [noRun3]
  simp only [List.isEmpty_nil, hx]
  simp [noRun3_blank1 hx h]

/-- The output of blank-run collapsing never has three blanks in a row. -/
theorem noRun3_cbAux :
    ∀ (ls : List (List Char)) (n : Nat), noRun3 (cbAux n ls) = true := by
  intro ls
  induction ls with
  | nil =>
    intro n
    rw [cbAux]
    by_cases h3 : 3 ≤ n
    · rw [if_pos h3]; rfl
    · rw [if_neg h3]
      have : n = 0 ∨ n = 1 ∨ n = 2 := by omega
      rcases this with rfl | rfl | rfl <;> rfl
  | cons l rest ih =>
    intro n
    rw [cbAux]
    by_cases hl : l.isEmpty = true
    · rw [if_pos hl]
      exact ih (n + 1)
    · rw [if_neg hl]
      have hl2 : l.isEmpty = false := by simpa using hl
      have hrec : noRun3 (l :: cbAux 0 rest) = true :=
        noRun3_cons_nonblank hl2 (ih 0)
      by_cases h3 : 3 ≤ n
      · rw [if_pos h3]
        exact noRun3_blank1 hl2 hrec
      · rw [if_neg h3]
        have : n = 0 ∨ n = 1 ∨ n = 2 := by omega
        rcases this with rfl | rfl | rfl
        · simpa using hrec
        · simpa using noRun3_blank1 hl2 hrec
        · simpa using noRun3_blank2 hl2 hrec

/-- Blank-run collapsing is the identity on lists with no 3-blank run. -/
theorem cbAux_fix :
    ∀ (k : Nat) (z : List (List Char)), z.length ≤ k → noRun3 z = true →
      cbAux 0 z = z := by
  intro k
  induction k with
  | zero =>
    intro z hz _
    have : z = [] := List.length_eq_zero.mp (Nat.le_zero.mp hz)
    subst this
    rfl
  | succ k ih =>
    intro z hz hn
    cases z with
    | nil => rfl
    | cons l rest =>
      by_cases hl : l.isEmpty = true
      · have hle : l = [] := List.isEmpty_iff.mp hl
        subst hle
        rw [cbAux, if_pos (show (List.isEmpty ([] : List Char)) = true from rfl)]
        cases rest with
        | nil => rfl
        | cons m rest2 =>
          by_cases hm : m.isEmpty = true
          · have hme : m = [] := List.isEmpty_iff.mp hm
            subst hme
            rw [cbAux, if_pos (show (List.isEmpty ([] : List Char)) = true from rfl)]
            cases rest2 with
            | nil => rfl
            | cons p rest3 =>
              by_cases hp : p.isEmpty = true
              · exfalso
                have hpe : p = [] := List.isEmpty_iff.mp hp
                subst hpe
                rw [noRun3] at hn
                simp at hn
              · rw [cbAux, if_neg hp]
                have hp2 : p.isEmpty = false := by simpa using hp
                have h9 : cbAux 0 rest3 = rest3 := by
                  apply ih rest3 (by simp at hz; omega)
                  exact noRun3_tail (noRun3_tail (noRun3_tail hn))
                rw [h9]
                rfl
          · rw [cbAux, if_neg hm]
            have h9 : cbAux 0 rest2 = rest2 := by
              apply ih rest2 (by simp at hz; omega)
              exact noRun3_tail (noRun3_tail hn)
            rw [h9]
            rfl
      · rw [cbAux, if_neg hl]
        have h9 : cbAux 0 rest = rest := by
          apply ih rest (by simp at hz; omega)
          exact noRun3_tail hn
        rw [h9]
        rfl

/-- Blank-run collapsing is idempotent. -/
theorem collapseBlanks_idem (z : List (List Char)) :
    collapseBlanks (collapseBlanks z) = collapseBlanks z := by
  rw [collapseBlanks, collapseBlanks]
  exact cbAux_fix (cbAux 0 z).length (cbAux 0 z) (Nat.le_refl _) (noRun3_cbAux z 0)

/-- Every line of a cleaned digit-free document is blank or the
normalization of a kept, digit-free input line. -/
theorem clean_line_shape (ls : List (List Char))
    (hdf : ∀ l ∈ ls, hasDigit l = false) :
    ∀ x ∈ clean ls, x = [] ∨
      ∃ w, w ∈ ls ∧ keepLine w = true ∧ hasDigit w = false ∧
        x = normalizeLine w := by
  intro x hx
  rcases mem_cbAux _ 0 x hx with h | h
  · exact Or.inl h
  · right
    simp only [List.mem_map, List.mem_filter] at h
    obtain ⟨w0, ⟨w1, ⟨hw1m, hw1k⟩, hr⟩, hx0⟩ := h
    refine ⟨w1, hw1m, hw1k, hdf w1 hw1m, ?_⟩
    rw [← hx0, ← hr]
    rw [repairLine, stripLineNum_of_no_digit w1 (hdf w1 hw1m),
      ocrFix_of_no_digit w1 (hdf w1 hw1m)]

/-- C3 counterexample: cleaning `ab VerDat5 e` once yields `ab VerDate`
(the OCR repair deletes the digit run), which the second pass then removes
as a publisher revision-date header line, so `clean` is not idempotent. -/
theorem clean_idempotent_counterexample :
    clean (clean ["ab VerDat5 e".data]) ≠ clean ["ab VerDat5 e".data] := by decide

/-- C3 amended: the cleaner is idempotent on documents containing no digit
characters; when digits are present, the pass-one OCR repair can fabricate
a line-removal pattern match that only the second pass removes. -/
theorem clean_idempotent_digit_free :
    ∀ ls : List (List Char), (∀ l ∈ ls, hasDigit l = false) →
      clean (clean ls) = clean ls := by
  intro ls hdf
  have key : ∀ x ∈ clean ls,
      keepLine x = true ∧ repairLine x = x ∧ normalizeLine x = x := by
    intro x hx
    rcases clean_line_shape ls hdf x hx with rfl | ⟨w, _, hk, hdw, rfl⟩
    · exact ⟨by decide, by decide, by decide⟩
    · have hd2 : hasDigit (normalizeLine w) = false := hasDigit_normalizeLine w hdw
      refine ⟨?_, ?_, normalizeLine_idem w⟩
      · rw [keepLine_normalizeLine, hk]
      · rw [repairLine, stripLineNum_of_no_digit _ hd2, ocrFix_of_no_digit _ hd2]
  have hfilter : (clean ls).filter keepLine = clean ls :=
    List.filter_eq_self.mpr (fun x hx => (key x hx).1)
  have hrepair : (clean ls).map repairLine = clean ls := by
    have h9 := List.map_congr_left (l := clean ls) (f := repairLine) (g := id)
      (fun x hx => (key x hx).2.1)
    rw [h9, List.map_id]
  have hnl : (clean ls).map normalizeLine = clean ls := by
    have h9 := List.map_congr_left (l := clean ls) (f := normalizeLine) (g := id)
      (fun x hx => (key x hx).2.2)
    rw [h9, List.map_id]
  calc clean (clean ls)
      = collapseBlanks ((((clean ls).filter keepLine).map repairLine).map
          normalizeLine) := rfl
    _ = collapseBlanks (clean ls) := by rw [hfilter, hrepair, hnl]
    _ = clean ls := by
        rw [show clean ls = collapseBlanks (((ls.filter keepLine).map
          repairLine).map normalizeLine) from rfl, collapseBlanks_idem]

/-- C3 witness: idempotence on a concrete digit-free document. -/
theorem clean_idempotent_digit_free_witness :
    clean (clean cleanWitnessDoc) = clean cleanWitnessDoc :=
  clean_idempotent_digit_free cleanWitnessDoc (by decide)
